import Mathlib

/-!
Verification development for the V2 knowledge-graph workflow
(`ekg_engine/ekg_core/v2_workflow.py`).

The Python functions `map_node_names_to_ids`, `expand_nodes`,
`get_relevant_subgraph`, `build_kg_guided_queries`, `generate_kg_text`,
`_has_sources_section`, `_append_sources_section` and the result assembly of
`v2_hybrid_answer` are translated into executable Lean definitions.  Graphs
are directed multigraphs given by an explicit node list and edge-record list
(matching the NetworkX graph the code traverses: the loader itself,
`load_kg_from_json` in `ekg_core/core.py`, is not among the sources, and the
traversal's `G[u][v].items()` / `G.predecessors(u)` usage together with the
documented data model fix directed multigraph semantics); Python dicts keyed by
strings become association lists looked up by first key occurrence, which is
faithful because the dicts have unique keys and iterate in insertion order.
Python string operations (`lower`, `strip`, `in`) are modelled for the ASCII
range that the code's fixed strings use.
-/

namespace V2W

/-- Whitespace predicate matching Python's notion of whitespace on the ASCII
range (space, tab, newline, carriage return, vertical tab, form feed). -/
def pyIsSpace (c : Char) : Bool :=
  c == ' ' || c == '\t' || c == '\n' || c == '\r' || c == '\x0b' || c == '\x0c'

/-- Python `str.strip()`: drop whitespace from both ends. -/
def pyStrip (s : String) : String :=
  ⟨((s.data.dropWhile pyIsSpace).reverse.dropWhile pyIsSpace).reverse⟩

/-- Python `str.rstrip()`: drop trailing whitespace. -/
def pyRstrip (s : String) : String :=
  ⟨(s.data.reverse.dropWhile pyIsSpace).reverse⟩

/-- Python `str.lower()`, modelled for the ASCII range by lowering each
character. -/
def pyLower (s : String) : String :=
  ⟨s.data.map Char.toLower⟩

/-- Python truthiness fallback `a or b` for strings: the empty string is
falsy. -/
def pyOrStr (a b : String) : String :=
  if a == "" then b else a

/-- Python `d.get(k) or default` chain step for an optional string value:
both a missing key and an empty string fall through. -/
def pyOrOpt (a : Option String) (b : String) : String :=
  match a with
  | some s => pyOrStr s b
  | none => b

/-- Python truthiness fallback `a or b` for lists: the empty list is falsy. -/
def pyOrList (a b : List String) : List String :=
  if a.isEmpty then b else a

/-- List membership check on `a :: seen` sets, keeping the first occurrence of
each element; models the observable content of a Python `set` built
incrementally (membership and cardinality agree with the Python set; the
unspecified Python set iteration order is normalised to first-insertion
order, which no verified property depends on). -/
def dedupKeepFirstAux {α : Type} [DecidableEq α] (seen : List α) : List α → List α
  | [] => []
  | x :: xs =>
    if x ∈ seen then dedupKeepFirstAux seen xs
    else x :: dedupKeepFirstAux (x :: seen) xs

/-- Deduplicate a list keeping first occurrences (see `dedupKeepFirstAux`). -/
def dedupKeepFirst {α : Type} [DecidableEq α] (l : List α) : List α :=
  dedupKeepFirstAux [] l

/-- Boolean test that `a` is an initial segment of `b` (over characters). -/
def charsHasPre : List Char → List Char → Bool
  | [], _ => true
  | _ :: _, [] => false
  | a :: as, b :: bs => a == b && charsHasPre as bs

/-- Python substring test `a in b`. -/
def strSub (a b : String) : Bool :=
  (List.range (b.data.length + 1)).any fun i => charsHasPre a.data (b.data.drop i)

/-- First-match lookup in an association list; models `dict[k]` / `k in dict`
for a Python dict with unique keys. -/
def assocFind {α : Type} (m : List (String × α)) (k : String) : Option α :=
  (m.find? fun p => p.1 == k).map fun p => p.2

/-!  Graph model: the code traverses a NetworkX directed multigraph via
`u in G`, `G[u]` (successor adjacency with per-pair multi-edge data) and
`G.predecessors(u)`.  We represent the graph by its node list and its list
of directed edge records. -/

/-- Attribute dict of one multigraph edge, restricted to the keys the V2
workflow reads: `type`, `label`, `evidence`, `source_documents`.  A missing
key is `none`. -/
structure EdgeData where
  type_ : Option String
  label : Option String
  evidence : Option String
  source_documents : Option String
deriving DecidableEq, Repr

/-- One directed edge of the multigraph (parallel edges are separate list
entries, in insertion order). -/
structure GEdge where
  src : String
  tgt : String
  data : EdgeData
deriving DecidableEq, Repr

/-- Directed multigraph: node list plus edge-record list. -/
structure Graph where
  nodes : List String
  edges : List GEdge
deriving DecidableEq, Repr

/-- Edge type resolution `edata.get("type") or edata.get("label") or
"RELATED"` (Python `or`: missing keys and empty strings fall through). -/
def edgeTypeOf (d : EdgeData) : String :=
  pyOrOpt d.type_ (pyOrOpt d.label "RELATED")

/-- The `_ok_edge` filter of `expand_nodes`: an empty (or absent) whitelist
accepts everything, otherwise the resolved edge type must be listed. -/
def okEdge (wl : List String) (d : EdgeData) : Bool :=
  wl.isEmpty || wl.contains (edgeTypeOf d)

/-- Successor iteration `for v in G[u]`: distinct targets of edges out of
`u`, in first-insertion order. -/
def succs (G : Graph) (u : String) : List String :=
  dedupKeepFirst ((G.edges.filter fun e => e.src == u).map fun e => e.tgt)

/-- Predecessor iteration `for v in G.predecessors(u)`: distinct sources of
edges into `u`, in first-insertion order. -/
def preds (G : Graph) (u : String) : List String :=
  dedupKeepFirst ((G.edges.filter fun e => e.tgt == u).map fun e => e.src)

/-- Multi-edge data iteration `for _, edata in G[u][v].items()`. -/
def edgesBetween (G : Graph) (u v : String) : List EdgeData :=
  (G.edges.filter fun e => e.src == u && e.tgt == v).map fun e => e.data

/-- Edge record appended to `edges` inside the expansion loop (keys
`source_id`, `target_id`, `type`, and the optional `evidence` /
`source_documents` copied when present on the edge data). -/
structure OutEdge where
  source_id : String
  target_id : String
  type_ : String
  evidence : Option String
  source_documents : Option String
deriving DecidableEq, Repr

/-- Edge record after the final `(source, target, type)` deduplication of
`expand_nodes`; only the triple survives. -/
structure EdgeRec where
  source_id : String
  target_id : String
  type_ : String
deriving DecidableEq, Repr

/-- Construction of one in-loop edge record from edge data. -/
def mkOutEdge (s t : String) (d : EdgeData) : OutEdge :=
  ⟨s, t, edgeTypeOf d, d.evidence, d.source_documents⟩

/-- State of the `expand_nodes` BFS loop: the `seen` set (first-insertion
order), the pending deque `q` of (node, depth) pairs, and the accumulated
edge records. -/
structure BfsState where
  seen : List String
  q : List (String × Nat)
  edges : List OutEdge
deriving Repr

/-- Body of the inner neighbour sweep of `expand_nodes` for one neighbour
`v`: append one record per multi-edge passing the whitelist (direction
`fwd = true` for `for v in G[u]`, giving records `u → v`; `fwd = false` for
`for v in G.predecessors(u)`, giving `v → u`), then enqueue `v` at depth
`d+1` when `v` is unseen and `d < hops`. -/
def visitStep (G : Graph) (wl : List String) (hops : Nat) (u : String)
    (d : Nat) (fwd : Bool) (v : String) (st : BfsState) : BfsState :=
  let eds := if fwd then edgesBetween G u v else edgesBetween G v u
  let recs := (eds.filter (okEdge wl)).map
    fun ed => if fwd then mkOutEdge u v ed else mkOutEdge v u ed
  if v ∈ st.seen ∨ ¬ d < hops then ⟨st.seen, st.q, st.edges ++ recs⟩
  else ⟨st.seen ++ [v], st.q ++ [(v, d + 1)], st.edges ++ recs⟩

/-- Inner neighbour sweep of `expand_nodes` over one adjacency list:
`visitStep` applied to each neighbour in order. -/
def visitNbrs (G : Graph) (wl : List String) (hops : Nat) (u : String) (d : Nat)
    (fwd : Bool) : List String → BfsState → BfsState
  | [], st => st
  | v :: vs, st => visitNbrs G wl hops u d fwd vs (visitStep G wl hops u d fwd v st)

/-- Main loop `while q and len(seen) < max_expanded` of `expand_nodes`.  The
`fuel` argument bounds the number of iterations so the definition is total;
every property proved about the loop holds for all fuel values, and
`expand_nodes` supplies fuel that is at least the number of possible
dequeues (each dequeue consumes one queue entry, and at most
`|seed list| + 2·|edge list|` entries are ever enqueued because an enqueue
adds a fresh node to `seen` and fresh nodes are edge endpoints). -/
def expandLoop (G : Graph) (wl : List String) (hops maxExp : Nat) :
    Nat → BfsState → BfsState
  | 0, st => st
  | fuel + 1, st =>
    if st.seen.length < maxExp then
      match st.q with
      | [] => st
      | (u, d) :: qrest =>
        let st0 : BfsState := ⟨st.seen, qrest, st.edges⟩
        if u ∈ G.nodes then
          let st1 := visitNbrs G wl hops u d true (succs G u) st0
          let st2 := visitNbrs G wl hops u d false (preds G u) st1
          expandLoop G wl hops maxExp fuel st2
        else
          expandLoop G wl hops maxExp fuel st0
    else st

/-- Translation of `expand_nodes(G, seed_ids, hops, edge_type_whitelist,
max_expanded)`: BFS from the seeds with `seen = set(seed_ids)` and
`q = deque((nid, 0) for nid in seed_ids)` (duplicate seeds are enqueued
twice but counted once), followed by the `list(set(...))` deduplication of
the edge records down to their `(source, target, type)` triples.  An empty
whitelist stands for Python's `None` / empty allow-list. -/
def expand_nodes (G : Graph) (seed_ids : List String) (hops : Nat)
    (wl : List String) (max_expanded : Nat) : List String × List EdgeRec :=
  let st0 : BfsState := ⟨dedupKeepFirst seed_ids, seed_ids.map (fun s => (s, 0)), []⟩
  let fuel := seed_ids.length + 2 * G.edges.length + 1
  let st := expandLoop G wl hops max_expanded fuel st0
  (st.seen, dedupKeepFirst (st.edges.map fun e => ⟨e.source_id, e.target_id, e.type_⟩))

/-!  Name resolution (`map_node_names_to_ids`) and the node-data map. -/

/-- Node attribute dict restricted to the keys the workflow reads: `name`,
`node_name`, `label`, `node_type`, `type`. -/
structure NodeData where
  name : Option String
  node_name : Option String
  label : Option String
  node_type : Option String
  type_ : Option String
deriving DecidableEq, Repr

/-- Display name used by the resolver's fallback scan:
`node_data.get('name') or node_data.get('node_name') or
node_data.get('label') or str(node_id)` (Python `or`: missing keys and
empty strings fall through). -/
def resolverName (node_id : String) (nd : NodeData) : String :=
  pyOrOpt nd.name (pyOrOpt nd.node_name (pyOrOpt nd.label node_id))

/-- Candidate/name normalisation `s.lower().strip()`. -/
def normName (s : String) : String :=
  pyStrip (pyLower s)

/-- Match predicate of the fallback scan for a normalised candidate `cl`
against one `(node_id, node_data)` entry: exact equality of normalised
names, or substring containment in either direction. -/
def scanMatchB (cl : String) (node_id : String) (nd : NodeData) : Bool :=
  let an := normName (resolverName node_id nd)
  cl == an || strSub cl an || strSub an cl

/-- Resolution of one candidate name: an exact normalised key in the name
index (when one is supplied and non-empty) yields all its identifiers;
otherwise the linear scan over `by_id` yields the first matching node's
identifier, or nothing.  The Python code's scalar index values are the
singleton-list case. -/
def lookupCandidate (by_id : List (String × NodeData))
    (name_index : List (String × List String)) (cand : String) : List String :=
  let cl := normName cand
  match (if name_index.isEmpty then none else assocFind name_index cl) with
  | some ids => ids
  | none =>
    match by_id.find? (fun p => scanMatchB cl p.1 p.2) with
    | some p => [p.1]
    | none => []

/-- Translation of `map_node_names_to_ids(node_names, by_id, name_index)`:
per-candidate resolution accumulated in order, then the final
`list(set(node_ids))` deduplication (normalised to first-occurrence
order). -/
def map_node_names_to_ids (node_names : List String)
    (by_id : List (String × NodeData))
    (name_index : List (String × List String)) : List String :=
  dedupKeepFirst (node_names.foldl (fun acc n => acc ++ lookupCandidate by_id name_index n) [])

/-!  Question analysis, subgraph workflow, query synthesis, KG text. -/

/-- Stepback-analysis dict fields read downstream. -/
structure Analysis where
  original_question : Option String
  stepback_question : Option String
  expanded_question : Option String
  entities : List String
  node_names : List String
deriving DecidableEq, Repr

/-- Subgraph-workflow result dict of `get_relevant_subgraph`. -/
structure KGResult where
  question_analysis : Analysis
  seed_node_ids : List String
  expanded_node_ids : List String
  edges : List EdgeRec
  nodes : List (String × NodeData)
deriving DecidableEq, Repr

/-- Translation of `get_relevant_subgraph`: map node names to seed ids;
an empty seed list short-circuits to an empty subgraph; otherwise expand and
collect node data for the expanded ids present in `by_id`.  The
`stepback_response` argument is the already-parsed analysis (the external
discovery call happens before this function). -/
def get_relevant_subgraph (G : Graph) (by_id : List (String × NodeData))
    (stepback_response : Analysis) (name_index : List (String × List String))
    (wl : List String) (hops max_expanded : Nat) : KGResult :=
  let seed_node_ids := map_node_names_to_ids stepback_response.node_names by_id name_index
  if seed_node_ids.isEmpty then
    ⟨stepback_response, [], [], [], []⟩
  else
    let r := expand_nodes G seed_node_ids hops wl max_expanded
    let nodes := r.1.foldl (fun acc nid =>
      match assocFind by_id nid with
      | some nd => acc ++ [(nid, nd)]
      | none => acc) []
    ⟨stepback_response, seed_node_ids, r.1, r.2, nodes⟩

/-- Display name used by the query synthesiser and KG text renderer:
`by_id[node_id].get('name', by_id[node_id].get('node_name', str(node_id)))`
(plain dict-get with default: present-but-empty values are kept). -/
def kgName (nid : String) (nd : NodeData) : String :=
  nd.name.getD (nd.node_name.getD nid)

/-- The `node_lookup` dict built over the expanded ids: defined exactly for
ids that are both expanded and present in `by_id`. -/
def nlkpOpt (kg : KGResult) (by_id : List (String × NodeData)) (nid : String) :
    Option String :=
  if kg.expanded_node_ids.contains nid then (assocFind by_id nid).map (kgName nid)
  else none

/-- The ordered query list of `build_kg_guided_queries` before deduplication:
original question; stepback and expanded reformulations when truthy; up to 5
entity-focused queries from the first 8 expanded nodes found in `by_id`; up
to 10 relationship-focused queries from the first 10 edges whose endpoint
names resolve to non-empty strings. -/
def rawQueries (question : String) (kg : KGResult)
    (by_id : List (String × NodeData)) : List String :=
  let qs := [question]
  let qs := qs ++ (match kg.question_analysis.stepback_question with
    | some s => if s == "" then [] else [s]
    | none => [])
  let qs := qs ++ (match kg.question_analysis.expanded_question with
    | some s => if s == "" then [] else [s]
    | none => [])
  let node_names := (kg.expanded_node_ids.take 8).foldl (fun acc nid =>
    match assocFind by_id nid with
    | some nd => acc ++ [kgName nid nd]
    | none => acc) []
  let qs := qs ++ (node_names.take 5).map (fun ent => question ++ " " ++ ent)
  let qs := qs ++ (kg.edges.take 10).foldl (fun acc e =>
    let sn := (nlkpOpt kg by_id e.source_id).getD ""
    let tn := (nlkpOpt kg by_id e.target_id).getD ""
    if sn == "" || tn == "" then acc
    else acc ++ [sn ++ " " ++ e.type_ ++ " " ++ tn]) []
  qs

/-- Case-insensitive first-occurrence deduplication with an explicit set of
already-seen lowercased keys, as in step 5 of `build_kg_guided_queries`. -/
def ciDedupAux (seen : List String) : List String → List String
  | [] => []
  | x :: xs =>
    if (pyLower x) ∈ seen then ciDedupAux seen xs
    else x :: ciDedupAux ((pyLower x) :: seen) xs

/-- Case-insensitive first-occurrence deduplication. -/
def ciDedup (l : List String) : List String :=
  ciDedupAux [] l

/-- Translation of `build_kg_guided_queries(question, kg_result, by_id,
max_queries)`: build the ordered query list, deduplicate case-insensitively
keeping first occurrences, truncate to `max_queries`. -/
def build_kg_guided_queries (question : String) (kg : KGResult)
    (by_id : List (String × NodeData)) (max_queries : Nat) : List String :=
  (ciDedup (rawQueries question kg by_id)).take max_queries

/-- Node type shown by the renderer:
`by_id[node_id].get('node_type', by_id[node_id].get('type', 'Entity'))`. -/
def rendererType (nd : NodeData) : String :=
  nd.node_type.getD (nd.type_.getD "Entity")

/-- One ENTITIES bullet of `generate_kg_text`. -/
def nodeBullet (nid : String) (nd : NodeData) : String :=
  "• " ++ kgName nid nd ++ " (" ++ rendererType nd ++ ")"

/-- The `nodes_summary` list of `generate_kg_text`: one bullet per id among
the first `max_nodes` expanded ids that is present in `by_id`. -/
def nodesSummary (kg : KGResult) (by_id : List (String × NodeData))
    (max_nodes : Nat) : List String :=
  (kg.expanded_node_ids.take max_nodes).filterMap
    (fun nid => (assocFind by_id nid).map (nodeBullet nid))

/-- One RELATIONSHIPS line of `generate_kg_text`; unresolvable endpoint
names render as a question mark. -/
def edgeLine (kg : KGResult) (by_id : List (String × NodeData)) (e : EdgeRec) :
    String :=
  "• " ++ (nlkpOpt kg by_id e.source_id).getD "?" ++ " --[" ++ e.type_ ++ "]→ "
    ++ (nlkpOpt kg by_id e.target_id).getD "?"

/-- The `edges_summary` list of `generate_kg_text`: one rendered line per
edge among the first `max_edges`. -/
def edgesSummary (kg : KGResult) (by_id : List (String × NodeData))
    (max_edges : Nat) : List String :=
  (kg.edges.take max_edges).map (edgeLine kg by_id)

/-- Translation of `generate_kg_text(kg_result, by_id, max_nodes,
max_edges)`: the fixed f-string template with the newline-joined node and
edge summaries spliced in. -/
def generate_kg_text (kg : KGResult) (by_id : List (String × NodeData))
    (max_nodes max_edges : Nat) : String :=
  "\nThe following entities and relationships are relevant to your question:\n\nENTITIES:\n"
    ++ String.intercalate "\n" (nodesSummary kg by_id max_nodes)
    ++ "\n\nRELATIONSHIPS:\n"
    ++ String.intercalate "\n" (edgesSummary kg by_id max_edges)
    ++ "\n\nThis structure shows WHAT entities exist and HOW they relate.\nUse this to understand the architecture and connections.\nThe actual detailed documentation will be retrieved via file_search.\n"

/-!  Citation post-processing (`_has_sources_section`,
`_append_sources_section`) and the final result assembly of
`v2_hybrid_answer`. -/

/-- Normalised citation entry (`id`, `source`). -/
structure Citation where
  id : String
  source : String
deriving DecidableEq, Repr

/-- Tail fragment `\s*$` of the heading regex (together with the word
boundary preceding it in the hash branch, which whitespace or end of input
satisfies).  Under backtracking it succeeds exactly when the maximal
whitespace run ahead contains a newline (`$` before `\n` under the `(?m)`
flag) or runs to the end of the text. -/
def tailEnd (cs : List Char) : Bool :=
  '\n' ∈ cs.takeWhile pyIsSpace || (cs.dropWhile pyIsSpace).isEmpty

/-- Tail fragment `\s*:?\s*$` of the bare branch of the heading regex: an
end of line directly, or an optional colon at the first non-whitespace
position followed by an end of line. -/
def tailBare (cs : List Char) : Bool :=
  tailEnd cs ||
    (match cs.dropWhile pyIsSpace with
     | ':' :: r => tailEnd r
     | _ => false)

/-- Optional continuation `\s+by\s+file` after the `sources` keyword, with
the branch-specific tail `k` applied to what follows. -/
def byFileTail (cs : List Char) (k : List Char → Bool) : Bool :=
  match cs with
  | [] => false
  | c :: rest =>
    pyIsSpace c &&
      (let r1 := rest.dropWhile pyIsSpace
       charsHasPre "by".data r1 &&
         (match r1.drop 2 with
          | [] => false
          | c2 :: rest2 =>
            pyIsSpace c2 &&
              (let r2 := rest2.dropWhile pyIsSpace
               charsHasPre "file".data r2 && k (r2.drop 4))))

/-- The `sources(?:\s+by\s+file)?` part of the heading regex followed by a
branch-specific tail `k`. -/
def keywordTail (cs : List Char) (k : List Char → Bool) : Bool :=
  charsHasPre "sources".data cs &&
    (let r := cs.drop 7
     k r || byFileTail r k)

/-- One attempt of the heading alternation of `_has_sources_section` at an
anchored position after `^\s*` (the argument is the lowercased text from
that position, the `(?i)` flag): either the bare branch
`sources(?:\s+by\s+file)?\s*:?\s*$` or the hash branch
`#{1,6}\s+sources(?:\s+by\s+file)?\b\s*$` (a run of more than six hash
marks cannot match, since `\s+` fails on the leftover hash). -/
def sourcesAt (cs : List Char) : Bool :=
  keywordTail cs tailBare ||
    (let n := (cs.takeWhile fun c => c == '#').length
     decide (1 ≤ n) && decide (n ≤ 6) &&
       (match cs.drop n with
        | [] => false
        | c :: rest =>
          pyIsSpace c && keywordTail (rest.dropWhile pyIsSpace) tailEnd))

/-- Suffixes of the text starting right after each newline: the non-initial
anchor positions of `^` under the `(?m)` flag. -/
def anchorSuffixes : List Char → List (List Char)
  | [] => []
  | c :: cs =>
    if c == '\n' then cs :: anchorSuffixes cs else anchorSuffixes cs

/-- Translation of `_has_sources_section(answer_text)`: an empty answer has
no section; otherwise the heading regex
`(?im)^\s*(#{1,6}\s+sources(?:\s+by\s+file)?\b|sources(?:\s+by\s+file)?\s*:?)\s*$`
matches at the start of the text or after some newline (when `^\s*` skips
whitespace containing a newline, the anchor right after that newline also
matches, so trying every anchor with a full whitespace skip is exhaustive). -/
def _has_sources_section (answer_text : String) : Bool :=
  if answer_text == "" then false
  else
    let low := (pyLower answer_text).data
    sourcesAt (low.dropWhile pyIsSpace) ||
      (anchorSuffixes low).any fun s => sourcesAt (s.dropWhile pyIsSpace)

/-- The sentinel answer exempt from citation post-processing. -/
def sentinelText : String :=
  "not enough information available"

/-- The synthesized block `"### Sources"` plus one `[id] source` line per
citation, newline-joined. -/
def sourcesBlock (citations : List Citation) : String :=
  String.intercalate "\n" ("### Sources" :: citations.map fun c => "[" ++ c.id ++ "] " ++ c.source)

/-- Translation of `_append_sources_section(answer_text, citations)`. -/
def _append_sources_section (answer_text : String) (citations : List Citation) :
    String :=
  if citations.isEmpty then answer_text
  else if answer_text == "" || pyLower (pyStrip answer_text) == sentinelText then
    answer_text
  else if _has_sources_section answer_text then answer_text
  else pyRstrip answer_text ++ "\n\n" ++ sourcesBlock citations

/-- Payload of a successful grounded-generation call after JSON parsing and
citation normalisation (the fields `v2_hybrid_answer` reads out of
`answer_json` plus the final citation list). -/
structure GenPayload where
  answer : String
  stepback_intent : String
  expanded_question : String
  business_entities : List String
  citations : List Citation
deriving DecidableEq, Repr

/-- Structured result of `v2_hybrid_answer` (the fields the error-handling
claims are about; `meta` and `curated_chunks` carry no further
answer-generation state). -/
structure V2Result where
  answer : String
  markdown : String
  sources : List Citation
  stepback_intent : String
  expanded_question : String
  business_entities : List String
deriving DecidableEq, Repr

/-- Result assembly of `v2_hybrid_answer` around the external grounded
generation, which is modelled by the `gen` argument: `Except.ok` carries the
parsed payload of a completed call, `Except.error` the message of any
exception raised inside the `try` block.  On success the Sources section is
appended to the answer; on exception the answer becomes the error text and
the intermediate fields are cleared.  The final dict then falls back to the
question-analysis values for empty intermediate fields (`x or
analysis.get(...)`). -/
def v2FinalResult (analysis : Analysis) (gen : Except String GenPayload) :
    V2Result :=
  let parts :=
    match gen with
    | Except.ok p =>
      (_append_sources_section p.answer p.citations, p.stepback_intent,
        p.expanded_question, p.business_entities, p.citations)
    | Except.error e =>
      ("Error generating answer: " ++ e, "", "", [], [])
  match parts with
  | (answer, si, exq, be, cits) =>
    { answer := answer
      markdown := answer
      sources := cits
      stepback_intent := pyOrStr si (analysis.stepback_question.getD "")
      expanded_question := pyOrStr exq (analysis.expanded_question.getD "")
      business_entities := pyOrList be analysis.entities }

/-!  Concrete fixtures used by counterexamples and witnesses. -/

/-- Edge data carrying only a `type` attribute `"R"`. -/
def edR : EdgeData :=
  ⟨some "R", none, none, none⟩

/-- Fan graph: one hub `a` with three outgoing edges to `b`, `c`, `d`. -/
def fanGraph : Graph :=
  ⟨["a", "b", "c", "d"], [⟨"a", "b", edR⟩, ⟨"a", "c", edR⟩, ⟨"a", "d", edR⟩]⟩

/-- Two-node graph with a single edge `a → b`. -/
def hopGraph : Graph :=
  ⟨["a", "b"], [⟨"a", "b", edR⟩]⟩

/-- Node data carrying only a `name` attribute. -/
def mkNd (n : String) : NodeData :=
  ⟨some n, none, none, none, none⟩

/-- Node map in which the scan meets the substring-matching node `Y`
(display name `"fo"`) before the exactly-matching node `X` (`"foo"`). -/
def byIdShadow : List (String × NodeData) :=
  [("Y", mkNd "fo"), ("X", mkNd "foo")]

/-- Node map with a single exactly-matching node. -/
def byIdExact : List (String × NodeData) :=
  [("X", mkNd "foo")]

/-- Subgraph result with two expanded nodes and no edges. -/
def kgDup : KGResult :=
  ⟨⟨none, none, none, [], []⟩, ["a"], ["a", "b"], [], []⟩

/-- Node map giving the two expanded nodes of `kgDup` the same display
name. -/
def byIdDup : List (String × NodeData) :=
  [("a", mkNd "x"), ("b", mkNd "x")]

/-- Subgraph result with two expanded nodes and one edge between them. -/
def kgRender : KGResult :=
  ⟨⟨none, none, none, [], []⟩, ["a"], ["a", "b"], [⟨"a", "b", "R"⟩], []⟩

/-- Node map with distinct display names for the nodes of `kgRender`. -/
def byIdRender : List (String × NodeData) :=
  [("a", mkNd "Alpha"), ("b", mkNd "Beta")]

/-- Analysis whose stepback and expanded reformulations are present. -/
def analysisSb : Analysis :=
  ⟨none, some "what is x", some "expanded x", ["e1"], []⟩

/-- Analysis with no discovered node names. -/
def analysisNoNames : Analysis :=
  ⟨none, some "sb", none, [], []⟩

/-- One concrete citation. -/
def citDoc : Citation :=
  ⟨"1", "doc.pdf"⟩

/-!  Reachability notions for the subgraph expansion claims. -/

/-- Undirected adjacency: some edge record joins `u` and `v` in either
direction. -/
def Adj (G : Graph) (u v : String) : Prop :=
  ∃ e ∈ G.edges, (e.src = u ∧ e.tgt = v) ∨ (e.src = v ∧ e.tgt = u)

/-- Reachability from the seed list `S` within `k` undirected hops. -/
inductive ReachWithin (G : Graph) (S : List String) : Nat → String → Prop where
  | seed : ∀ (s : String) (k : Nat), s ∈ S → ReachWithin G S k s
  | step : ∀ (u v : String) (k : Nat),
      ReachWithin G S k u → Adj G u v → ReachWithin G S (k + 1) v

/-- Largest undirected neighbour count of any graph node (successor count
plus predecessor count). -/
def nbrBound (G : Graph) : Nat :=
  (G.nodes.map fun u => (succs G u).length + (preds G u).length).foldr Nat.max 0

/-!  Lemmas about the generic helpers. -/

theorem mem_dedupKeepFirstAux {α : Type} [DecidableEq α] (l : List α)
    (seen : List α) (x : α) :
    x ∈ dedupKeepFirstAux seen l ↔ x ∈ l ∧ x ∉ seen := by
  induction l generalizing seen with
  | nil => simp [dedupKeepFirstAux]
  | cons y ys ih =>
    by_cases hy : y ∈ seen
    · rw [dedupKeepFirstAux, if_pos hy, ih]
      constructor
      · rintro ⟨hx, hs⟩
        exact ⟨List.mem_cons_of_mem _ hx, hs⟩
      · rintro ⟨hx, hs⟩
        rcases List.mem_cons.mp hx with rfl | hx
        · exact absurd hy hs
        · exact ⟨hx, hs⟩
    · rw [dedupKeepFirstAux, if_neg hy]
      constructor
      · intro hx
        rcases List.mem_cons.mp hx with rfl | hx
        · exact ⟨List.mem_cons_self _ _, hy⟩
        · obtain ⟨hx1, hx2⟩ := (ih (y :: seen)).mp hx
          refine ⟨List.mem_cons_of_mem _ hx1, fun h => hx2 (List.mem_cons_of_mem _ h)⟩
      · rintro ⟨hx, hs⟩
        rcases List.mem_cons.mp hx with rfl | hx
        · exact List.mem_cons_self _ _
        · by_cases hxy : x = y
          · exact hxy ▸ List.mem_cons_self _ _
          · refine List.mem_cons_of_mem _ ((ih (y :: seen)).mpr ⟨hx, ?_⟩)
            intro h
            rcases List.mem_cons.mp h with h | h
            · exact hxy h
            · exact hs h

theorem mem_dedupKeepFirst {α : Type} [DecidableEq α] (l : List α) (x : α) :
    x ∈ dedupKeepFirst l ↔ x ∈ l := by
  simp [dedupKeepFirst, mem_dedupKeepFirstAux]

theorem nodup_dedupKeepFirstAux {α : Type} [DecidableEq α] (l : List α)
    (seen : List α) : (dedupKeepFirstAux seen l).Nodup := by
  induction l generalizing seen with
  | nil => simp [dedupKeepFirstAux]
  | cons y ys ih =>
    by_cases hy : y ∈ seen
    · rw [dedupKeepFirstAux, if_pos hy]
      exact ih seen
    · rw [dedupKeepFirstAux, if_neg hy]
      refine List.Pairwise.cons ?_ (ih (y :: seen))
      intro z hz hzy
      have := (mem_dedupKeepFirstAux ys (y :: seen) z).mp hz
      exact this.2 (by rw [← hzy]; exact List.mem_cons_self _ _)

theorem nodup_dedupKeepFirst {α : Type} [DecidableEq α] (l : List α) :
    (dedupKeepFirst l).Nodup :=
  nodup_dedupKeepFirstAux l []

theorem ciDedupAux_find (l : List String) (seen : List String) (x : String)
    (hx : x ∈ ciDedupAux seen l) :
    (pyLower x) ∉ seen ∧
      l.find? (fun y => (pyLower y) == (pyLower x)) = some x := by
  induction l generalizing seen with
  | nil => simp [ciDedupAux] at hx
  | cons y ys ih =>
    by_cases hy : (pyLower y) ∈ seen
    · rw [ciDedupAux, if_pos hy] at hx
      obtain ⟨hs, hf⟩ := ih seen hx
      refine ⟨hs, ?_⟩
      rw [List.find?_cons]
      have hne : ((pyLower y) == (pyLower x)) = false := by
        by_contra h
        have heq : (pyLower y) = (pyLower x) :=
          eq_of_beq (Bool.not_eq_false _ |>.mp h)
        exact hs (heq ▸ hy)
      rw [hne]
      exact hf
    · rw [ciDedupAux, if_neg hy] at hx
      rcases List.mem_cons.mp hx with rfl | hx
      · refine ⟨hy, ?_⟩
        rw [List.find?_cons]
        simp
      · obtain ⟨hs, hf⟩ := ih ((pyLower y) :: seen) hx
        have hxs : (pyLower x) ∉ seen := fun h => hs (List.mem_cons_of_mem _ h)
        have hxy : ¬ (pyLower y) = (pyLower x) := by
          intro h
          exact hs (by rw [← h]; exact List.mem_cons_self _ _)
        refine ⟨hxs, ?_⟩
        rw [List.find?_cons]
        have hne : ((pyLower y) == (pyLower x)) = false := by
          by_contra h
          exact hxy (eq_of_beq (Bool.not_eq_false _ |>.mp h))
        rw [hne]
        exact hf

theorem ciDedupAux_pairwise (l : List String) (seen : List String) :
    List.Pairwise (fun a b => pyLower a ≠ pyLower b) (ciDedupAux seen l) := by
  induction l generalizing seen with
  | nil => simp [ciDedupAux]
  | cons y ys ih =>
    by_cases hy : (pyLower y) ∈ seen
    · rw [ciDedupAux, if_pos hy]
      exact ih seen
    · rw [ciDedupAux, if_neg hy]
      refine List.Pairwise.cons ?_ (ih ((pyLower y) :: seen))
      intro z hz h
      have := (ciDedupAux_find ys ((pyLower y) :: seen) z hz).1
      exact this (by rw [← h]; exact List.mem_cons_self _ _)

theorem mem_foldl_append {α β : Type} (l : List α) (f : α → List β)
    (init : List β) (x : β) (h : x ∈ init ∨ ∃ a ∈ l, x ∈ f a) :
    x ∈ l.foldl (fun acc a => acc ++ f a) init := by
  induction l generalizing init with
  | nil =>
    rcases h with h | ⟨a, ha, _⟩
    · simpa using h
    · simp at ha
  | cons y ys ih =>
    simp only [List.foldl_cons]
    apply ih
    rcases h with h | ⟨a, ha, hfa⟩
    · exact Or.inl (List.mem_append_left _ h)
    · rcases List.mem_cons.mp ha with rfl | ha
      · exact Or.inl (List.mem_append_right _ hfa)
      · exact Or.inr ⟨a, ha, hfa⟩

theorem le_foldr_max (l : List Nat) (x : Nat) (h : x ∈ l) :
    x ≤ l.foldr Nat.max 0 := by
  induction l with
  | nil => simp at h
  | cons y ys ih =>
    rcases List.mem_cons.mp h with rfl | h
    · exact Nat.le_max_left _ _
    · exact Nat.le_trans (ih h) (Nat.le_max_right _ _)

theorem nbr_le_nbrBound (G : Graph) (u : String) (h : u ∈ G.nodes) :
    (succs G u).length + (preds G u).length ≤ nbrBound G :=
  le_foldr_max _ _ (List.mem_map_of_mem _ h)

theorem mem_succs_adj (G : Graph) (u v : String) (h : v ∈ succs G u) :
    Adj G u v := by
  rw [succs, mem_dedupKeepFirst] at h
  obtain ⟨e, he, rfl⟩ := List.mem_map.mp h
  obtain ⟨heG, hsrc⟩ := List.mem_filter.mp he
  exact ⟨e, heG, Or.inl ⟨eq_of_beq hsrc, rfl⟩⟩

theorem mem_preds_adj (G : Graph) (u v : String) (h : v ∈ preds G u) :
    Adj G u v := by
  rw [preds, mem_dedupKeepFirst] at h
  obtain ⟨e, he, rfl⟩ := List.mem_map.mp h
  obtain ⟨heG, htgt⟩ := List.mem_filter.mp he
  exact ⟨e, heG, Or.inr ⟨rfl, eq_of_beq htgt⟩⟩

theorem ReachWithin.mono {G : Graph} {S : List String} {k k' : Nat}
    {x : String} (h : ReachWithin G S k x) (hk : k ≤ k') :
    ReachWithin G S k' x := by
  induction h generalizing k' with
  | seed s k hs => exact ReachWithin.seed s k' hs
  | step u v k _ hadj ih =>
    match k', hk with
    | m + 1, hk => exact ReachWithin.step u v m (ih (by omega)) hadj

/-!  Invariant lemmas for the BFS of `expand_nodes`. -/

theorem visitStep_seen_mono (G : Graph) (wl : List String) (hops : Nat)
    (u : String) (d : Nat) (fwd : Bool) (v : String) (st : BfsState)
    (x : String) (hx : x ∈ st.seen) :
    x ∈ (visitStep G wl hops u d fwd v st).seen := by
  rw [visitStep]
  split
  · exact hx
  · exact List.mem_append_left _ hx

theorem visitStep_seen_sub (G : Graph) (wl : List String) (hops : Nat)
    (u : String) (d : Nat) (fwd : Bool) (v : String) (st : BfsState)
    (x : String) (hx : x ∈ (visitStep G wl hops u d fwd v st).seen) :
    x ∈ st.seen ∨ (x = v ∧ d < hops) := by
  rw [visitStep] at hx
  split at hx
  · exact Or.inl hx
  · rename_i hcond
    rcases List.mem_append.mp hx with hx | hx
    · exact Or.inl hx
    · have hd : d < hops := by
        by_contra hd
        exact hcond (Or.inr hd)
      exact Or.inr ⟨List.mem_singleton.mp hx, hd⟩

theorem visitStep_seen_length (G : Graph) (wl : List String) (hops : Nat)
    (u : String) (d : Nat) (fwd : Bool) (v : String) (st : BfsState) :
    (visitStep G wl hops u d fwd v st).seen.length ≤ st.seen.length + 1 := by
  rw [visitStep]
  split
  · exact Nat.le_succ _
  · simp

theorem visitStep_q_sub (G : Graph) (wl : List String) (hops : Nat)
    (u : String) (d : Nat) (fwd : Bool) (v : String) (st : BfsState)
    (p : String × Nat) (hp : p ∈ (visitStep G wl hops u d fwd v st).q) :
    p ∈ st.q ∨ (p = (v, d + 1) ∧ d < hops) := by
  rw [visitStep] at hp
  split at hp
  · exact Or.inl hp
  · rename_i hcond
    rcases List.mem_append.mp hp with hp | hp
    · exact Or.inl hp
    · have hd : d < hops := by
        by_contra hd
        exact hcond (Or.inr hd)
      exact Or.inr ⟨List.mem_singleton.mp hp, hd⟩

theorem visitStep_edges_sub (G : Graph) (wl : List String) (hops : Nat)
    (u : String) (d : Nat) (fwd : Bool) (v : String) (st : BfsState)
    (e : OutEdge) (he : e ∈ (visitStep G wl hops u d fwd v st).edges) :
    e ∈ st.edges ∨ (fwd = true ∧ e.source_id = u) ∨ (fwd = false ∧ e.target_id = u) := by
  have hrec : ∀ ed : EdgeData,
      e = (if fwd then mkOutEdge u v ed else mkOutEdge v u ed) →
      (fwd = true ∧ e.source_id = u) ∨ (fwd = false ∧ e.target_id = u) := by
    intro ed hed
    cases fwd with
    | true =>
      rw [if_pos rfl] at hed
      exact Or.inl ⟨rfl, by rw [hed]; rfl⟩
    | false =>
      rw [if_neg (by simp)] at hed
      exact Or.inr ⟨rfl, by rw [hed]; rfl⟩
  rw [visitStep] at he
  split at he <;>
  · rcases List.mem_append.mp he with he | he
    · exact Or.inl he
    · obtain ⟨ed, _, hed⟩ := List.mem_map.mp he
      exact Or.inr (hrec ed hed.symm)

theorem visitStep_q_node_seen (G : Graph) (wl : List String) (hops : Nat)
    (u : String) (d : Nat) (fwd : Bool) (v : String) (st : BfsState)
    (hq : ∀ p ∈ st.q, p.1 ∈ st.seen) :
    ∀ p ∈ (visitStep G wl hops u d fwd v st).q,
      p.1 ∈ (visitStep G wl hops u d fwd v st).seen := by
  intro p hp
  by_cases hc : v ∈ st.seen ∨ ¬ d < hops
  · rw [visitStep, if_pos hc] at hp ⊢
    exact hq p hp
  · rw [visitStep, if_neg hc] at hp ⊢
    rcases List.mem_append.mp hp with hp | hp
    · exact List.mem_append_left _ (hq p hp)
    · rw [List.mem_singleton.mp hp]
      exact List.mem_append_right _ (List.mem_singleton_self _)

theorem visitNbrs_seen_mono (G : Graph) (wl : List String) (hops : Nat)
    (u : String) (d : Nat) (fwd : Bool) (vs : List String) (st : BfsState)
    (x : String) (hx : x ∈ st.seen) :
    x ∈ (visitNbrs G wl hops u d fwd vs st).seen := by
  induction vs generalizing st with
  | nil => exact hx
  | cons v vs ih =>
    exact ih _ (visitStep_seen_mono G wl hops u d fwd v st x hx)

theorem visitNbrs_seen_sub (G : Graph) (wl : List String) (hops : Nat)
    (u : String) (d : Nat) (fwd : Bool) (vs : List String) (st : BfsState)
    (x : String) (hx : x ∈ (visitNbrs G wl hops u d fwd vs st).seen) :
    x ∈ st.seen ∨ (x ∈ vs ∧ d < hops) := by
  induction vs generalizing st with
  | nil => exact Or.inl hx
  | cons v vs ih =>
    rcases ih _ hx with hx | ⟨hxv, hd⟩
    · rcases visitStep_seen_sub G wl hops u d fwd v st x hx with hx | ⟨rfl, hd⟩
      · exact Or.inl hx
      · exact Or.inr ⟨List.mem_cons_self _ _, hd⟩
    · exact Or.inr ⟨List.mem_cons_of_mem _ hxv, hd⟩

theorem visitNbrs_seen_length (G : Graph) (wl : List String) (hops : Nat)
    (u : String) (d : Nat) (fwd : Bool) (vs : List String) (st : BfsState) :
    (visitNbrs G wl hops u d fwd vs st).seen.length ≤ st.seen.length + vs.length := by
  induction vs generalizing st with
  | nil => simp [visitNbrs]
  | cons v vs ih =>
    calc (visitNbrs G wl hops u d fwd vs (visitStep G wl hops u d fwd v st)).seen.length
        ≤ (visitStep G wl hops u d fwd v st).seen.length + vs.length := ih _
      _ ≤ st.seen.length + 1 + vs.length :=
          Nat.add_le_add_right (visitStep_seen_length G wl hops u d fwd v st) _
      _ = st.seen.length + (v :: vs).length := by simp; omega

theorem visitNbrs_q_sub (G : Graph) (wl : List String) (hops : Nat)
    (u : String) (d : Nat) (fwd : Bool) (vs : List String) (st : BfsState)
    (p : String × Nat) (hp : p ∈ (visitNbrs G wl hops u d fwd vs st).q) :
    p ∈ st.q ∨ (p.1 ∈ vs ∧ p.2 = d + 1 ∧ d < hops) := by
  induction vs generalizing st with
  | nil => exact Or.inl hp
  | cons v vs ih =>
    rcases ih _ hp with hp | ⟨hpv, hd⟩
    · rcases visitStep_q_sub G wl hops u d fwd v st p hp with hp | ⟨rfl, hd⟩
      · exact Or.inl hp
      · exact Or.inr ⟨List.mem_cons_self _ _, rfl, hd⟩
    · exact Or.inr ⟨List.mem_cons_of_mem _ hpv, hd⟩

theorem visitNbrs_edges_sub (G : Graph) (wl : List String) (hops : Nat)
    (u : String) (d : Nat) (fwd : Bool) (vs : List String) (st : BfsState)
    (e : OutEdge) (he : e ∈ (visitNbrs G wl hops u d fwd vs st).edges) :
    e ∈ st.edges ∨ (fwd = true ∧ e.source_id = u) ∨ (fwd = false ∧ e.target_id = u) := by
  induction vs generalizing st with
  | nil => exact Or.inl he
  | cons v vs ih =>
    rcases ih _ he with he | he
    · exact visitStep_edges_sub G wl hops u d fwd v st e he
    · exact Or.inr he

theorem visitNbrs_q_node_seen (G : Graph) (wl : List String) (hops : Nat)
    (u : String) (d : Nat) (fwd : Bool) (vs : List String) (st : BfsState)
    (hq : ∀ p ∈ st.q, p.1 ∈ st.seen) :
    ∀ p ∈ (visitNbrs G wl hops u d fwd vs st).q,
      p.1 ∈ (visitNbrs G wl hops u d fwd vs st).seen := by
  induction vs generalizing st with
  | nil => exact hq
  | cons v vs ih =>
    exact ih _ (visitStep_q_node_seen G wl hops u d fwd v st hq)

theorem expandLoop_succ_nil (G : Graph) (wl : List String) (hops maxExp : Nat)
    (fuel : Nat) (seen : List String) (edges : List OutEdge) :
    expandLoop G wl hops maxExp (fuel + 1) ⟨seen, [], edges⟩ =
      (⟨seen, [], edges⟩ : BfsState) := by
  rw [expandLoop]
  split <;> rfl

theorem expandLoop_succ_cons (G : Graph) (wl : List String) (hops maxExp : Nat)
    (fuel : Nat) (seen : List String) (u : String) (d : Nat)
    (qrest : List (String × Nat)) (edges : List OutEdge) :
    expandLoop G wl hops maxExp (fuel + 1) ⟨seen, (u, d) :: qrest, edges⟩ =
      if seen.length < maxExp then
        (if u ∈ G.nodes then
          expandLoop G wl hops maxExp fuel
            (visitNbrs G wl hops u d false (preds G u)
              (visitNbrs G wl hops u d true (succs G u) ⟨seen, qrest, edges⟩))
        else expandLoop G wl hops maxExp fuel ⟨seen, qrest, edges⟩)
      else ⟨seen, (u, d) :: qrest, edges⟩ := rfl

theorem expandLoop_seen_mono (G : Graph) (wl : List String) (hops maxExp : Nat)
    (fuel : Nat) (st : BfsState) (x : String) (hx : x ∈ st.seen) :
    x ∈ (expandLoop G wl hops maxExp fuel st).seen := by
  induction fuel generalizing st with
  | zero => exact hx
  | succ fuel ih =>
    obtain ⟨seen, q, edges⟩ := st
    match q with
    | [] =>
      rw [expandLoop_succ_nil]
      exact hx
    | (u, d) :: qrest =>
      rw [expandLoop_succ_cons]
      by_cases h1 : seen.length < maxExp
      · rw [if_pos h1]
        by_cases h2 : u ∈ G.nodes
        · rw [if_pos h2]
          exact ih _ (visitNbrs_seen_mono _ _ _ _ _ _ _ _ _
            (visitNbrs_seen_mono _ _ _ _ _ _ _ _ _ hx))
        · rw [if_neg h2]
          exact ih _ hx
      · rw [if_neg h1]
        exact hx

theorem expandLoop_seen_length (G : Graph) (wl : List String)
    (hops maxExp : Nat) (K : Nat) (hK : maxExp - 1 + nbrBound G ≤ K)
    (fuel : Nat) (st : BfsState) (hst : st.seen.length ≤ K) :
    (expandLoop G wl hops maxExp fuel st).seen.length ≤ K := by
  induction fuel generalizing st with
  | zero => exact hst
  | succ fuel ih =>
    obtain ⟨seen, q, edges⟩ := st
    match q with
    | [] =>
      rw [expandLoop_succ_nil]
      exact hst
    | (u, d) :: qrest =>
      rw [expandLoop_succ_cons]
      by_cases h1 : seen.length < maxExp
      · rw [if_pos h1]
        by_cases h2 : u ∈ G.nodes
        · rw [if_pos h2]
          apply ih
          have hb := nbr_le_nbrBound G u h2
          have l1 := visitNbrs_seen_length G wl hops u d true (succs G u)
            ⟨seen, qrest, edges⟩
          have l2 := visitNbrs_seen_length G wl hops u d false (preds G u)
            (visitNbrs G wl hops u d true (succs G u) ⟨seen, qrest, edges⟩)
          simp only [BfsState.seen] at l1 l2 ⊢
          omega
        · rw [if_neg h2]
          exact ih _ hst
      · rw [if_neg h1]
        exact hst

theorem expandLoop_reach (G : Graph) (S : List String) (wl : List String)
    (hops maxExp : Nat) (fuel : Nat) (st : BfsState)
    (hseen : ∀ x ∈ st.seen, ReachWithin G S hops x)
    (hq : ∀ p ∈ st.q, p.2 ≤ hops ∧ ReachWithin G S p.2 p.1) :
    ∀ x ∈ (expandLoop G wl hops maxExp fuel st).seen, ReachWithin G S hops x := by
  induction fuel generalizing st with
  | zero => exact hseen
  | succ fuel ih =>
    obtain ⟨seen, q, edges⟩ := st
    match q with
    | [] =>
      rw [expandLoop_succ_nil]
      exact hseen
    | (u, d) :: qrest =>
      rw [expandLoop_succ_cons]
      by_cases h1 : seen.length < maxExp
      · rw [if_pos h1]
        obtain ⟨hd, hu⟩ := hq (u, d) (List.mem_cons_self _ _)
        have hq0 : ∀ p ∈ qrest, p.2 ≤ hops ∧ ReachWithin G S p.2 p.1 :=
          fun p hp => hq p (List.mem_cons_of_mem _ hp)
        by_cases h2 : u ∈ G.nodes
        · rw [if_pos h2]
          set st0 : BfsState := ⟨seen, qrest, edges⟩ with hst0
          set st1 := visitNbrs G wl hops u d true (succs G u) st0 with hst1
          have hseen1 : ∀ x ∈ st1.seen, ReachWithin G S hops x := by
            intro x hx
            rcases visitNbrs_seen_sub G wl hops u d true (succs G u) st0 x hx
              with hx | ⟨hxv, hdh⟩
            · exact hseen x hx
            · exact (ReachWithin.step u x d hu (mem_succs_adj G u x hxv)).mono
                (by omega)
          have hq1 : ∀ p ∈ st1.q, p.2 ≤ hops ∧ ReachWithin G S p.2 p.1 := by
            intro p hp
            rcases visitNbrs_q_sub G wl hops u d true (succs G u) st0 p hp
              with hp | ⟨hpv, hp2, hdh⟩
            · exact hq0 p hp
            · rw [hp2]
              exact ⟨by omega, ReachWithin.step u p.1 d hu (mem_succs_adj G u p.1 hpv)⟩
          apply ih
          · intro x hx
            rcases visitNbrs_seen_sub G wl hops u d false (preds G u) st1 x hx
              with hx | ⟨hxv, hdh⟩
            · exact hseen1 x hx
            · exact (ReachWithin.step u x d hu (mem_preds_adj G u x hxv)).mono
                (by omega)
          · intro p hp
            rcases visitNbrs_q_sub G wl hops u d false (preds G u) st1 p hp
              with hp | ⟨hpv, hp2, hdh⟩
            · exact hq1 p hp
            · rw [hp2]
              exact ⟨by omega, ReachWithin.step u p.1 d hu (mem_preds_adj G u p.1 hpv)⟩
        · rw [if_neg h2]
          exact ih _ hseen hq0
      · rw [if_neg h1]
        exact hseen

theorem expandLoop_endpoint (G : Graph) (wl : List String)
    (hops maxExp : Nat) (fuel : Nat) (st : BfsState)
    (hq : ∀ p ∈ st.q, p.1 ∈ st.seen)
    (he : ∀ e ∈ st.edges, e.source_id ∈ st.seen ∨ e.target_id ∈ st.seen) :
    ∀ e ∈ (expandLoop G wl hops maxExp fuel st).edges,
      e.source_id ∈ (expandLoop G wl hops maxExp fuel st).seen ∨
        e.target_id ∈ (expandLoop G wl hops maxExp fuel st).seen := by
  induction fuel generalizing st with
  | zero => exact he
  | succ fuel ih =>
    obtain ⟨seen, q, edges⟩ := st
    match q with
    | [] =>
      rw [expandLoop_succ_nil]
      exact he
    | (u, d) :: qrest =>
      rw [expandLoop_succ_cons]
      by_cases h1 : seen.length < maxExp
      · rw [if_pos h1]
        have hu : u ∈ seen := hq (u, d) (List.mem_cons_self _ _)
        have hq0 : ∀ p ∈ qrest, p.1 ∈ seen :=
          fun p hp => hq p (List.mem_cons_of_mem _ hp)
        by_cases h2 : u ∈ G.nodes
        · rw [if_pos h2]
          set st0 : BfsState := ⟨seen, qrest, edges⟩ with hst0
          set st1 := visitNbrs G wl hops u d true (succs G u) st0 with hst1
          set st2 := visitNbrs G wl hops u d false (preds G u) st1 with hst2
          have hmono1 : ∀ x, x ∈ st0.seen → x ∈ st1.seen :=
            fun x hx => visitNbrs_seen_mono G wl hops u d true (succs G u) st0 x hx
          have hmono2 : ∀ x, x ∈ st1.seen → x ∈ st2.seen :=
            fun x hx => visitNbrs_seen_mono G wl hops u d false (preds G u) st1 x hx
          have hq1 : ∀ p ∈ st1.q, p.1 ∈ st1.seen :=
            visitNbrs_q_node_seen G wl hops u d true (succs G u) st0 hq0
          have hq2 : ∀ p ∈ st2.q, p.1 ∈ st2.seen :=
            visitNbrs_q_node_seen G wl hops u d false (preds G u) st1 hq1
          have he2 : ∀ e ∈ st2.edges, e.source_id ∈ st2.seen ∨ e.target_id ∈ st2.seen := by
            intro e heM
            rcases visitNbrs_edges_sub G wl hops u d false (preds G u) st1 e heM
              with heM | ⟨_, hend⟩ | ⟨_, hend⟩
            · rcases visitNbrs_edges_sub G wl hops u d true (succs G u) st0 e heM
                with heM | ⟨_, hend⟩ | ⟨_, hend⟩
              · rcases he e heM with h | h
                · exact Or.inl (hmono2 _ (hmono1 _ h))
                · exact Or.inr (hmono2 _ (hmono1 _ h))
              · exact Or.inl (hend ▸ hmono2 _ (hmono1 _ hu))
              · exact Or.inr (hend ▸ hmono2 _ (hmono1 _ hu))
            · exact Or.inl (hend ▸ hmono2 _ (hmono1 _ hu))
            · exact Or.inr (hend ▸ hmono2 _ (hmono1 _ hu))
          exact ih st2 hq2 he2
        · rw [if_neg h2]
          exact ih _ hq0 he
      · rw [if_neg h1]
        exact he

/-!  Claim theorems about `expand_nodes`. -/

/-- C1, counterexample: the expanded node set returned by `expand_nodes` can
exceed the `max_expanded` budget — with budget 2, one seed and three
neighbours, four nodes are returned, because the budget is only checked
before a dequeue and a single dequeue may enqueue many neighbours. -/
theorem c1_budget_counterexample :
    ¬ (expand_nodes fanGraph ["a"] 1 [] 2).1.length ≤ 2 := by decide

/-- C1, amended: the expanded node count is bounded by the larger of the
distinct seed count and `max_expanded - 1` plus the largest undirected
neighbour count of any graph node (the budget is checked only before each
dequeue, so one dequeue can overshoot it by at most the dequeued node's
neighbour count; the seed set is never truncated). -/
theorem c1_expand_nodes_budget_bound (G : Graph) (seed_ids : List String)
    (hops : Nat) (wl : List String) (max_expanded : Nat) :
    (expand_nodes G seed_ids hops wl max_expanded).1.length ≤
      Nat.max (dedupKeepFirst seed_ids).length (max_expanded - 1 + nbrBound G) :=
  expandLoop_seen_length G wl hops max_expanded _ (Nat.le_max_right _ _) _ _
    (Nat.le_max_left _ _)

/-- C4: every seed is a member of the expanded node set, and every member of
the expanded node set is reachable from some seed within `hops` undirected
hops (regardless of whitelist and budget). -/
theorem c4_expand_nodes_reachability (G : Graph) (seed_ids : List String)
    (hops : Nat) (wl : List String) (max_expanded : Nat) :
    (∀ s ∈ seed_ids, s ∈ (expand_nodes G seed_ids hops wl max_expanded).1) ∧
      ∀ v ∈ (expand_nodes G seed_ids hops wl max_expanded).1,
        ReachWithin G seed_ids hops v := by
  constructor
  · intro s hs
    exact expandLoop_seen_mono G wl hops max_expanded _ _ s
      ((mem_dedupKeepFirst _ _).mpr hs)
  · intro v hv
    refine expandLoop_reach G seed_ids wl hops max_expanded _ _ ?_ ?_ v hv
    · intro x hx
      exact ReachWithin.seed x hops ((mem_dedupKeepFirst _ _).mp hx)
    · intro p hp
      obtain ⟨s, hs, rfl⟩ := List.mem_map.mp hp
      exact ⟨Nat.zero_le _, ReachWithin.seed s 0 hs⟩

/-- C4, witness: in the fan graph with seed `a` and one hop, the seed is in
the expanded set and the returned node `b` is reachable within one hop. -/
theorem c4_expand_nodes_reachability_witness :
    "a" ∈ (expand_nodes fanGraph ["a"] 1 [] 60).1 ∧
      ReachWithin fanGraph ["a"] 1 "b" :=
  ⟨(c4_expand_nodes_reachability fanGraph ["a"] 1 [] 60).1 "a" (by decide),
    (c4_expand_nodes_reachability fanGraph ["a"] 1 [] 60).2 "b" (by decide)⟩

/-- C8: the edge list returned by `expand_nodes` contains no two records
with the same `(source, target, type)` triple. -/
theorem c8_expand_nodes_edges_dedup (G : Graph) (seed_ids : List String)
    (hops : Nat) (wl : List String) (max_expanded : Nat) :
    List.Pairwise
      (fun a b : EdgeRec =>
        a.source_id ≠ b.source_id ∨ a.target_id ≠ b.target_id ∨ a.type_ ≠ b.type_)
      (expand_nodes G seed_ids hops wl max_expanded).2 := by
  have h : ((expand_nodes G seed_ids hops wl max_expanded).2).Nodup :=
    nodup_dedupKeepFirst _
  refine h.imp ?_
  intro a b hab
  by_contra hcon
  push_neg at hcon
  obtain ⟨h1, h2, h3⟩ := hcon
  apply hab
  cases a
  cases b
  simp_all

/-- C10: every edge record returned by `expand_nodes` has at least one
endpoint in the expanded node set, and (concretely, with hop limit 0) the
other endpoint can be a node absent from the expanded set. -/
theorem c10_expand_nodes_edge_endpoint :
    (∀ (G : Graph) (seed_ids : List String) (hops : Nat) (wl : List String)
        (max_expanded : Nat) (e : EdgeRec),
        e ∈ (expand_nodes G seed_ids hops wl max_expanded).2 →
          e.source_id ∈ (expand_nodes G seed_ids hops wl max_expanded).1 ∨
            e.target_id ∈ (expand_nodes G seed_ids hops wl max_expanded).1) ∧
      ∃ e ∈ (expand_nodes hopGraph ["a"] 0 [] 60).2,
        e.target_id ∉ (expand_nodes hopGraph ["a"] 0 [] 60).1 := by
  constructor
  · intro G seed_ids hops wl maxExp e he
    have he2 : e ∈ (expandLoop G wl hops maxExp
        (seed_ids.length + 2 * G.edges.length + 1)
        ⟨dedupKeepFirst seed_ids, seed_ids.map (fun s => (s, 0)), []⟩).edges.map
          (fun e : OutEdge => (⟨e.source_id, e.target_id, e.type_⟩ : EdgeRec)) :=
      (mem_dedupKeepFirst _ _).mp he
    obtain ⟨e0, he0, rfl⟩ := List.mem_map.mp he2
    refine expandLoop_endpoint G wl hops maxExp _
      ⟨dedupKeepFirst seed_ids, seed_ids.map (fun s => (s, 0)), []⟩ ?_ ?_ e0 he0
    · intro p hp
      obtain ⟨s, hs, rfl⟩ := List.mem_map.mp hp
      exact (mem_dedupKeepFirst _ _).mpr hs
    · intro e3 he3
      simp at he3
  · decide

/-- C10, witness: the universal endpoint property applied to the concrete
hop-0 expansion of `hopGraph`. -/
theorem c10_expand_nodes_edge_endpoint_witness :
    (⟨"a", "b", "R"⟩ : EdgeRec) ∈ (expand_nodes hopGraph ["a"] 0 [] 60).2 ∧
      ((⟨"a", "b", "R"⟩ : EdgeRec).source_id ∈ (expand_nodes hopGraph ["a"] 0 [] 60).1 ∨
        (⟨"a", "b", "R"⟩ : EdgeRec).target_id ∈ (expand_nodes hopGraph ["a"] 0 [] 60).1) :=
  ⟨by decide,
    c10_expand_nodes_edge_endpoint.1 hopGraph ["a"] 0 [] 60 ⟨"a", "b", "R"⟩ (by decide)⟩

/-- C7: when name resolution yields no seeds, `get_relevant_subgraph`
returns an empty expanded node set and an empty edge list, and
`build_kg_guided_queries` on that empty subgraph still returns the verbatim
original question as its first entry whenever `max_queries ≥ 1`. -/
theorem c7_empty_seed_graceful (G : Graph) (by_id : List (String × NodeData))
    (stepback_response : Analysis) (name_index : List (String × List String))
    (wl : List String) (hops max_expanded : Nat) (question : String)
    (max_queries : Nat)
    (hseeds : map_node_names_to_ids stepback_response.node_names by_id name_index = [])
    (hmq : 1 ≤ max_queries) :
    (get_relevant_subgraph G by_id stepback_response name_index wl hops
        max_expanded).expanded_node_ids = [] ∧
      (get_relevant_subgraph G by_id stepback_response name_index wl hops
        max_expanded).edges = [] ∧
      (build_kg_guided_queries question
        (get_relevant_subgraph G by_id stepback_response name_index wl hops
          max_expanded) by_id max_queries).head? = some question := by
  have hkg : get_relevant_subgraph G by_id stepback_response name_index wl hops
      max_expanded = ⟨stepback_response, [], [], [], []⟩ := by
    unfold get_relevant_subgraph
    rw [hseeds]
    rfl
  rw [hkg]
  refine ⟨rfl, rfl, ?_⟩
  obtain ⟨rest, hrest⟩ :
      ∃ rest, rawQueries question ⟨stepback_response, [], [], [], []⟩ by_id =
        question :: rest := ⟨_, rfl⟩
  rw [build_kg_guided_queries, hrest, ciDedup, ciDedupAux, if_neg (by simp)]
  obtain ⟨n, rfl⟩ : ∃ n, max_queries = n + 1 := ⟨max_queries - 1, by omega⟩
  simp [List.take_succ_cons]

/-- C7, witness: the empty-seed behaviour at a concrete graph, node map and
question. -/
theorem c7_empty_seed_graceful_witness :
    map_node_names_to_ids analysisNoNames.node_names byIdRender [] = [] ∧
      1 ≤ 12 ∧
      ((get_relevant_subgraph fanGraph byIdRender analysisNoNames [] [] 1
          60).expanded_node_ids = [] ∧
        (get_relevant_subgraph fanGraph byIdRender analysisNoNames [] [] 1
          60).edges = [] ∧
        (build_kg_guided_queries "What is a?"
          (get_relevant_subgraph fanGraph byIdRender analysisNoNames [] [] 1 60)
          byIdRender 12).head? = some "What is a?") :=
  ⟨by decide, by decide,
    c7_empty_seed_graceful fanGraph byIdRender analysisNoNames [] [] 1 60
      "What is a?" 12 (by decide) (by decide)⟩

/-- C3: the query list built by `build_kg_guided_queries` has length at most
`max_queries`, contains no two entries equal under case-insensitive
comparison, and every kept entry is the first occurrence of its lowercase
class in the priority-ordered raw query list. -/
theorem c3_build_kg_guided_queries_dedup (question : String) (kg : KGResult)
    (by_id : List (String × NodeData)) (max_queries : Nat) :
    (build_kg_guided_queries question kg by_id max_queries).length ≤ max_queries ∧
      List.Pairwise (fun a b => pyLower a ≠ pyLower b)
        (build_kg_guided_queries question kg by_id max_queries) ∧
      ∀ q ∈ build_kg_guided_queries question kg by_id max_queries,
        (rawQueries question kg by_id).find? (fun y => (pyLower y) == pyLower q) =
          some q := by
  refine ⟨?_, ?_, ?_⟩
  · rw [build_kg_guided_queries, List.length_take]
    exact min_le_left _ _
  · exact List.Pairwise.sublist (List.take_sublist _ _)
      (ciDedupAux_pairwise (rawQueries question kg by_id) [])
  · intro q hq
    have hq2 : q ∈ ciDedup (rawQueries question kg by_id) :=
      List.take_subset _ _ hq
    exact (ciDedupAux_find (rawQueries question kg by_id) [] q hq2).2

/-- C3, witness: the deduplication properties evaluated on a concrete
subgraph and node map. -/
theorem c3_build_kg_guided_queries_dedup_witness :
    "Q" ∈ build_kg_guided_queries "Q" kgRender byIdRender 12 ∧
      (rawQueries "Q" kgRender byIdRender).find?
        (fun y => (pyLower y) == pyLower "Q") = some "Q" :=
  ⟨by decide,
    (c3_build_kg_guided_queries_dedup "Q" kgRender byIdRender 12).2.2 "Q" (by decide)⟩

/-- C2, counterexample: candidate `"foo"` matches node `X`'s display name
`"foo"` exactly (case-insensitively), but the scan's first match in map
order is the bidirectional-substring-matching node `Y` (display name
`"fo"`), so `X`'s identifier is not in the returned list. -/
theorem c2_exact_match_counterexample :
    normName "foo" = normName (resolverName "X" (mkNd "foo")) ∧
      ("X", mkNd "foo") ∈ byIdShadow ∧
      "X" ∉ map_node_names_to_ids ["foo"] byIdShadow [] := by decide

/-- C2, amended: when no name index is supplied and some node's display name
equals the candidate case-insensitively, the scan finds a first matching
entry (under the equality-or-bidirectional-substring predicate, in map
iteration order) and that entry's identifier — not necessarily the exactly
matching node's — is a member of the returned list. -/
theorem c2_map_node_names_first_match (node_names : List String)
    (by_id : List (String × NodeData)) (cand : String)
    (hc : cand ∈ node_names)
    (hex : ∃ p ∈ by_id, normName cand = normName (resolverName p.1 p.2)) :
    ∃ p, by_id.find? (fun pr => scanMatchB (normName cand) pr.1 pr.2) = some p ∧
      p.1 ∈ map_node_names_to_ids node_names by_id [] := by
  obtain ⟨p0, hp0, hn0⟩ := hex
  have hfind : (by_id.find? (fun pr => scanMatchB (normName cand) pr.1 pr.2)).isSome := by
    rw [List.find?_isSome]
    refine ⟨p0, hp0, ?_⟩
    simp [scanMatchB, ← hn0]
  obtain ⟨p, hp⟩ := Option.isSome_iff_exists.mp hfind
  refine ⟨p, hp, ?_⟩
  rw [map_node_names_to_ids]
  rw [mem_dedupKeepFirst]
  apply mem_foldl_append
  refine Or.inr ⟨cand, hc, ?_⟩
  simp only [lookupCandidate, List.isEmpty_nil, if_pos]
  rw [hp]
  exact List.mem_singleton_self _

/-- C2, witness: a candidate exactly matching the single node of
`byIdExact` resolves to that node's identifier. -/
theorem c2_map_node_names_first_match_witness :
    "foo" ∈ (["foo"] : List String) ∧
      (∃ p ∈ byIdExact, normName "foo" = normName (resolverName p.1 p.2)) ∧
      ∃ p, byIdExact.find? (fun pr => scanMatchB (normName "foo") pr.1 pr.2) =
          some p ∧
        p.1 ∈ map_node_names_to_ids ["foo"] byIdExact [] :=
  ⟨by decide, ⟨("X", mkNd "foo"), by decide, by decide⟩,
    c2_map_node_names_first_match ["foo"] byIdExact "foo" (by decide)
      ⟨("X", mkNd "foo"), by decide, by decide⟩⟩

/-- C5, counterexample: two expanded nodes with the same display name and
type produce the same bullet twice, so the bullet of each of those nodes
does not appear exactly once even though both caps exceed the node and edge
counts. -/
theorem c5_render_counterexample :
    kgDup.expanded_node_ids.length ≤ 40 ∧ kgDup.edges.length ≤ 50 ∧
      (nodesSummary kgDup byIdDup 40).count (nodeBullet "a" (mkNd "x")) = 2 := by
  decide

/-- C5, amended: with caps at least the node and edge counts, every expanded
node present in the node-data map contributes its bullet to the ENTITIES
lines and every edge contributes its rendered triple to the RELATIONSHIPS
lines of `generate_kg_text`; a bullet or triple occurs exactly once whenever
the rendered lines are pairwise distinct (nodes absent from the map are
silently skipped, and duplicate renderings appear once per contributor). -/
theorem c5_generate_kg_text_render (kg : KGResult)
    (by_id : List (String × NodeData)) (max_nodes max_edges : Nat)
    (hn : kg.expanded_node_ids.length ≤ max_nodes)
    (he : kg.edges.length ≤ max_edges) :
    ((nodesSummary kg by_id max_nodes).Nodup →
      ∀ nid nd, nid ∈ kg.expanded_node_ids → assocFind by_id nid = some nd →
        (nodesSummary kg by_id max_nodes).count (nodeBullet nid nd) = 1) ∧
      ((edgesSummary kg by_id max_edges).Nodup →
        ∀ e ∈ kg.edges,
          (edgesSummary kg by_id max_edges).count (edgeLine kg by_id e) = 1) := by
  constructor
  · intro hnd nid nd hmem hfind
    apply List.count_eq_one_of_mem hnd
    rw [nodesSummary, List.take_of_length_le hn, List.mem_filterMap]
    exact ⟨nid, hmem, by rw [hfind]; rfl⟩
  · intro hnd e hmem
    apply List.count_eq_one_of_mem hnd
    rw [edgesSummary, List.take_of_length_le he]
    exact List.mem_map_of_mem _ hmem

/-- C5, witness: exact-once rendering on a concrete subgraph whose bullets
and triples are pairwise distinct. -/
theorem c5_generate_kg_text_render_witness :
    kgRender.expanded_node_ids.length ≤ 40 ∧ kgRender.edges.length ≤ 50 ∧
      (nodesSummary kgRender byIdRender 40).count (nodeBullet "a" (mkNd "Alpha")) = 1 ∧
      (edgesSummary kgRender byIdRender 50).count
        (edgeLine kgRender byIdRender ⟨"a", "b", "R"⟩) = 1 :=
  ⟨by decide, by decide,
    (c5_generate_kg_text_render kgRender byIdRender 40 50 (by decide) (by decide)).1
      (by decide) "a" (mkNd "Alpha") (by decide) (by decide),
    (c5_generate_kg_text_render kgRender byIdRender 40 50 (by decide) (by decide)).2
      (by decide) ⟨"a", "b", "R"⟩ (by decide)⟩

/-- C6, counterexample: after a generation failure the structured fields are
not empty — they fall back to the question-analysis values (`x or
analysis.get(...)` in the final dict). -/
theorem c6_error_fields_counterexample :
    (v2FinalResult analysisSb (Except.error "boom")).stepback_intent = "what is x" ∧
      (v2FinalResult analysisSb (Except.error "boom")).expanded_question = "expanded x" ∧
      (v2FinalResult analysisSb (Except.error "boom")).business_entities = ["e1"] := by
  decide

/-- C6, amended: when the grounded-generation call raises, `v2_hybrid_answer`
still returns a structured result whose answer (and markdown) is the
human-readable error text and whose citation list is empty, while the
stepback intent, expanded question and business entities are filled from the
question analysis (hence empty only when the analysis fields are). -/
theorem c6_generation_failure_result (analysis : Analysis) (e : String) :
    (v2FinalResult analysis (Except.error e)).answer =
        "Error generating answer: " ++ e ∧
      (v2FinalResult analysis (Except.error e)).markdown =
        "Error generating answer: " ++ e ∧
      (v2FinalResult analysis (Except.error e)).sources = [] ∧
      (v2FinalResult analysis (Except.error e)).stepback_intent =
        analysis.stepback_question.getD "" ∧
      (v2FinalResult analysis (Except.error e)).expanded_question =
        analysis.expanded_question.getD "" ∧
      (v2FinalResult analysis (Except.error e)).business_entities =
        analysis.entities := by
  refine ⟨rfl, rfl, rfl, ?_, ?_, ?_⟩ <;>
    simp [v2FinalResult, pyOrStr, pyOrList]

/-- C9, counterexample: an empty answer with a non-empty citation list is
returned unchanged although it contains no Sources heading and is not the
sentinel, refuting the claimed "exactly when" condition. -/
theorem c9_empty_answer_counterexample :
    _append_sources_section "" [citDoc] = "" ∧
      _has_sources_section "" = false ∧
      pyLower (pyStrip "") ≠ sentinelText := by decide

/-- C9, amended: for a non-empty citation list and a non-empty answer, the
Sources section is appended exactly when the answer is neither the sentinel
(after trimming and lowercasing) nor already contains a Sources heading;
otherwise — in particular for sentinel answers — the answer is returned
unchanged. -/
theorem c9_append_sources_section (answer_text : String)
    (citations : List Citation) (hc : citations ≠ []) (ha : answer_text ≠ "") :
    _append_sources_section answer_text citations =
      if pyLower (pyStrip answer_text) == sentinelText ∨
          _has_sources_section answer_text then answer_text
      else pyRstrip answer_text ++ "\n\n" ++ sourcesBlock citations := by
  have hc2 : citations.isEmpty = false := by
    cases citations with
    | nil => exact absurd rfl hc
    | cons c cs => rfl
  have ha2 : (answer_text == "") = false := by
    rw [beq_eq_false_iff_ne]
    exact ha
  rw [_append_sources_section, hc2]
  by_cases hs : (pyLower (pyStrip answer_text) == sentinelText) = true
  · simp [ha2, hs]
  · by_cases hh : _has_sources_section answer_text = true
    · simp [ha2, hs, hh]
    · simp [ha2, hs, hh]

/-- C9, witness: the amended append behaviour evaluated at a concrete
answer and citation list. -/
theorem c9_append_sources_section_witness :
    [citDoc] ≠ ([] : List Citation) ∧ "Answer [1]" ≠ "" ∧
      _append_sources_section "Answer [1]" [citDoc] =
        (if pyLower (pyStrip "Answer [1]") == sentinelText ∨
            _has_sources_section "Answer [1]" then "Answer [1]"
         else pyRstrip "Answer [1]" ++ "\n\n" ++ sourcesBlock [citDoc]) :=
  ⟨by decide, by decide,
    c9_append_sources_section "Answer [1]" [citDoc] (by decide) (by decide)⟩

end V2W
